import Mathlib

/-!
Verification of the diff-statistics core of `git-stats` (main.py).

Strings are modelled as `List Char`; Python integers as `Int` (counters) or
`Nat` (lengths, distances); the per-key `defaultdict(int)` tables as total
functions `String → Int` defaulting to `0`.
-/

namespace GitStats

/-! ## EditDistance: the `levenshtein` function (main.py lines 115-138)

The Python function computes the distance with a row-wise dynamic program:
`previous` starts as `range(la + 1)`; for each character `c` of the (longer)
string `b` a fresh row `current` is computed with
`current[j] = min(previous[j] + 1, current[j-1] + 1, previous[j-1] + cost)`,
and the answer is `previous[la]`.  `rowStep` builds the tail of one such row
(indices `1..la`), `outerRows` iterates the rows, and `levenshtein` adds the
early-exit special cases and the swap that makes `a` the shorter string. -/

/-- One inner loop of the DP (main.py lines 132-136): given the remaining
characters of `a`, the suffix of the previous row starting at `previous[j-1]`,
and `current[j-1]`, produce the row entries `current[j], current[j+1], ...`. -/
def rowStep (c : Char) : List Char → List Nat → Nat → List Nat
  | x :: xs, p0 :: p1 :: ps, cl =>
      let insert_cost := p1 + 1
      let delete_cost := cl + 1
      let replace_cost := p0 + (if x = c then 0 else 1)
      let v := min (min insert_cost delete_cost) replace_cost
      v :: rowStep c xs (p1 :: ps) v
  | _, _, _ => []

/-- The outer loop of the DP (main.py lines 129-137): one row per character of
`b`, with the row counter `i` starting at 1; returns the final `previous` row. -/
def outerRows (a : List Char) : List Char → Nat → List Nat → List Nat
  | [], _, previous => previous
  | c :: cs, i, previous => outerRows a cs (i + 1) (i :: rowStep c a previous i)

/-- The core DP of `levenshtein`: `previous = list(range(la + 1))`, run all
rows, return `previous[la]`. -/
def levCore (a b : List Char) : Nat :=
  (outerRows a b 1 (List.range (a.length + 1))).getD a.length 0

/-- `levenshtein` (main.py lines 115-138).  Early exits for equal and empty
inputs; the `la > lb` branch performs the `a, b = b, a` swap, after which the
shared DP tail `levCore` runs. -/
def levenshtein (a b : List Char) : Nat :=
  if a = b then 0
  else if a.length = 0 then b.length
  else if b.length = 0 then a.length
  else if a.length > b.length then levCore b a
  else levCore a b

/-! ## The mathematical specification of Levenshtein distance -/

/-- Textbook recurrence for the unweighted Levenshtein distance
(no transpositions): this is the specification the DP must match. -/
def levRec : List Char → List Char → Nat
  | [], ys => ys.length
  | _ :: xs, [] => xs.length + 1
  | x :: xs, y :: ys =>
      min (min (levRec xs (y :: ys) + 1) (levRec (x :: xs) ys + 1))
        (levRec xs ys + (if x = y then 0 else 1))
termination_by a b => a.length + b.length
decreasing_by all_goals simp_arith

/-- `Aligns a b n` holds when `a` can be transformed into `b` by an edit
script of exactly `n` single-character insertions, deletions and
substitutions (a substitution may be trivial; trivial substitutions still
cost 1, so they never lower the minimum). -/
inductive Aligns : List Char → List Char → Nat → Prop
  | nil : Aligns [] [] 0
  | keep (x : Char) {xs ys : List Char} {n : Nat} :
      Aligns xs ys n → Aligns (x :: xs) (x :: ys) n
  | subst (x y : Char) {xs ys : List Char} {n : Nat} :
      Aligns xs ys n → Aligns (x :: xs) (y :: ys) (n + 1)
  | del (x : Char) {xs ys : List Char} {n : Nat} :
      Aligns xs ys n → Aligns (x :: xs) ys (n + 1)
  | ins (y : Char) {xs ys : List Char} {n : Nat} :
      Aligns xs ys n → Aligns xs (y :: ys) (n + 1)

theorem levRec_nil_left (ys : List Char) : levRec [] ys = ys.length := by
  simp [levRec]

theorem levRec_nil_right (xs : List Char) : levRec xs [] = xs.length := by
  cases xs <;> simp [levRec]

theorem levRec_cons_cons (x y : Char) (xs ys : List Char) :
    levRec (x :: xs) (y :: ys) =
      min (min (levRec xs (y :: ys) + 1) (levRec (x :: xs) ys + 1))
        (levRec xs ys + (if x = y then 0 else 1)) := by
  simp [levRec]

theorem levRec_self : ∀ a : List Char, levRec a a = 0
  | [] => by simp [levRec]
  | x :: xs => by
      have ih := levRec_self xs
      rw [levRec_cons_cons]
      simp [ih]

theorem levRec_comm : ∀ a b : List Char, levRec a b = levRec b a
  | [], [] => rfl
  | [], _ :: _ => by rw [levRec_nil_left, levRec_nil_right]
  | _ :: _, [] => by rw [levRec_nil_left, levRec_nil_right]
  | x :: xs, y :: ys => by
      have h1 := levRec_comm xs (y :: ys)
      have h2 := levRec_comm (x :: xs) ys
      have h3 := levRec_comm xs ys
      rw [levRec_cons_cons, levRec_cons_cons, h1, h2, h3]
      rcases eq_or_ne x y with rfl | hxy
      · simp; omega
      · rw [if_neg hxy, if_neg (Ne.symm hxy)]; omega
termination_by a b => a.length + b.length
decreasing_by all_goals simp_arith

/-- Deleting the head character costs at most one extra edit. -/
theorem levRec_cons_left_le (x : Char) (xs ys : List Char) :
    levRec (x :: xs) ys ≤ levRec xs ys + 1 := by
  cases ys with
  | nil => rw [levRec_nil_right, levRec_nil_right]; simp
  | cons y ys =>
      rw [levRec_cons_cons]
      omega

/-- Inserting a head character costs at most one extra edit. -/
theorem levRec_cons_right_le (y : Char) (xs ys : List Char) :
    levRec xs (y :: ys) ≤ levRec xs ys + 1 := by
  cases xs with
  | nil => rw [levRec_nil_left, levRec_nil_left]; simp
  | cons x xs =>
      rw [levRec_cons_cons]
      omega

theorem levRec_cons_cons_le (x y : Char) (xs ys : List Char) :
    levRec (x :: xs) (y :: ys) ≤ levRec xs ys + 1 := by
  rw [levRec_cons_cons]
  rcases eq_or_ne x y with rfl | hxy
  · simp
  · rw [if_neg hxy]; omega

theorem levRec_keep_le (x : Char) (xs ys : List Char) :
    levRec (x :: xs) (x :: ys) ≤ levRec xs ys := by
  rw [levRec_cons_cons]
  simp

/-- Achievability: some edit script of cost `levRec a b` exists. -/
theorem aligns_nil_left : ∀ ys : List Char, Aligns [] ys ys.length
  | [] => Aligns.nil
  | y :: ys => Aligns.ins y (aligns_nil_left ys)

theorem aligns_nil_right : ∀ xs : List Char, Aligns xs [] xs.length
  | [] => Aligns.nil
  | x :: xs => Aligns.del x (aligns_nil_right xs)

theorem aligns_levRec : ∀ a b : List Char, Aligns a b (levRec a b)
  | [], ys => by rw [levRec_nil_left]; exact aligns_nil_left ys
  | x :: xs, [] => by rw [levRec_nil_right]; exact aligns_nil_right (x :: xs)
  | x :: xs, y :: ys => by
      have hd := aligns_levRec xs (y :: ys)
      have hi := aligns_levRec (x :: xs) ys
      have hs := aligns_levRec xs ys
      rw [levRec_cons_cons]
      rcases eq_or_ne x y with rfl | hxy
      · rw [if_pos rfl]
        have hcase : min (min (levRec xs (x :: ys) + 1) (levRec (x :: xs) ys + 1))
            (levRec xs ys + 0) = levRec xs (x :: ys) + 1 ∨
            min (min (levRec xs (x :: ys) + 1) (levRec (x :: xs) ys + 1))
            (levRec xs ys + 0) = levRec (x :: xs) ys + 1 ∨
            min (min (levRec xs (x :: ys) + 1) (levRec (x :: xs) ys + 1))
            (levRec xs ys + 0) = levRec xs ys + 0 := by omega
        rcases hcase with h | h | h <;> rw [h]
        · exact Aligns.del x hd
        · exact Aligns.ins x hi
        · exact Aligns.keep x hs
      · rw [if_neg hxy]
        have hcase : min (min (levRec xs (y :: ys) + 1) (levRec (x :: xs) ys + 1))
            (levRec xs ys + 1) = levRec xs (y :: ys) + 1 ∨
            min (min (levRec xs (y :: ys) + 1) (levRec (x :: xs) ys + 1))
            (levRec xs ys + 1) = levRec (x :: xs) ys + 1 ∨
            min (min (levRec xs (y :: ys) + 1) (levRec (x :: xs) ys + 1))
            (levRec xs ys + 1) = levRec xs ys + 1 := by omega
        rcases hcase with h | h | h <;> rw [h]
        · exact Aligns.del x hd
        · exact Aligns.ins y hi
        · exact Aligns.subst x y hs
termination_by a b => a.length + b.length
decreasing_by all_goals simp_arith

/-- Optimality: no edit script beats `levRec`. -/
theorem levRec_le_of_aligns {a b : List Char} {n : Nat}
    (h : Aligns a b n) : levRec a b ≤ n := by
  induction h with
  | nil => simp [levRec]
  | keep x h ih => exact le_trans (levRec_keep_le _ _ _) ih
  | subst x y h ih =>
      exact le_trans (levRec_cons_cons_le _ _ _ _) (by omega)
  | del x h ih => exact le_trans (levRec_cons_left_le _ _ _) (by omega)
  | ins y h ih => exact le_trans (levRec_cons_right_le _ _ _) (by omega)

/-! ## Edit scripts are closed under reversal -/

theorem Aligns.keep_snoc (z : Char) {xs ys : List Char} {n : Nat}
    (h : Aligns xs ys n) : Aligns (xs ++ [z]) (ys ++ [z]) n := by
  induction h with
  | nil => exact Aligns.keep z Aligns.nil
  | keep x h ih => exact Aligns.keep x ih
  | subst x y h ih => exact Aligns.subst x y ih
  | del x h ih => exact Aligns.del x ih
  | ins y h ih => exact Aligns.ins y ih

theorem Aligns.subst_snoc (z w : Char) {xs ys : List Char} {n : Nat}
    (h : Aligns xs ys n) : Aligns (xs ++ [z]) (ys ++ [w]) (n + 1) := by
  induction h with
  | nil => exact Aligns.subst z w Aligns.nil
  | keep x h ih => exact Aligns.keep x ih
  | subst x y h ih => exact Aligns.subst x y ih
  | del x h ih => exact Aligns.del x ih
  | ins y h ih => exact Aligns.ins y ih

theorem Aligns.del_snoc (z : Char) {xs ys : List Char} {n : Nat}
    (h : Aligns xs ys n) : Aligns (xs ++ [z]) ys (n + 1) := by
  induction h with
  | nil => exact Aligns.del z Aligns.nil
  | keep x h ih => exact Aligns.keep x ih
  | subst x y h ih => exact Aligns.subst x y ih
  | del x h ih => exact Aligns.del x ih
  | ins y h ih => exact Aligns.ins y ih

theorem Aligns.ins_snoc (w : Char) {xs ys : List Char} {n : Nat}
    (h : Aligns xs ys n) : Aligns xs (ys ++ [w]) (n + 1) := by
  induction h with
  | nil => exact Aligns.ins w Aligns.nil
  | keep x h ih => exact Aligns.keep x ih
  | subst x y h ih => exact Aligns.subst x y ih
  | del x h ih => exact Aligns.del x ih
  | ins y h ih => exact Aligns.ins y ih

theorem Aligns.rev {xs ys : List Char} {n : Nat}
    (h : Aligns xs ys n) : Aligns xs.reverse ys.reverse n := by
  induction h with
  | nil => exact Aligns.nil
  | keep x h ih => simpa [List.reverse_cons] using ih.keep_snoc x
  | subst x y h ih => simpa [List.reverse_cons] using ih.subst_snoc x y
  | del x h ih => simpa [List.reverse_cons] using ih.del_snoc x
  | ins y h ih => simpa [List.reverse_cons] using ih.ins_snoc y

/-- Levenshtein distance is invariant under reversing both strings. -/
theorem levRec_reverse (a b : List Char) :
    levRec a.reverse b.reverse = levRec a b := by
  have h1 : levRec a.reverse b.reverse ≤ levRec a b :=
    levRec_le_of_aligns (aligns_levRec a b).rev
  have h2 : levRec a b ≤ levRec a.reverse b.reverse := by
    have := levRec_le_of_aligns (aligns_levRec a.reverse b.reverse).rev
    simpa using this
  omega

/-! ## The row DP computes `levRec`

The invariant: after consuming the (reversed) prefix `q` of `b`, the row held
in `previous` is `fullRow q a`, whose entry `j` is the distance between the
reversed `j`-prefix of `a` and `q`. -/

/-- The row entries with index at least 1: `cells q pa rest` lists
`levRec ((prefix of rest).reverse ++ pa) q` for nonempty prefixes of `rest`. -/
def cells (q : List Char) : List Char → List Char → List Nat
  | _, [] => []
  | pa, x :: rest => levRec (x :: pa) q :: cells q (x :: pa) rest

/-- The full DP row for reversed `b`-prefix `q` over string `a`. -/
def fullRow (q a : List Char) : List Nat :=
  levRec [] q :: cells q [] a

theorem rowStep_cells (c : Char) (q : List Char) :
    ∀ (rest pa : List Char),
      rowStep c rest (levRec pa q :: cells q pa rest) (levRec pa (c :: q)) =
        cells (c :: q) pa rest
  | [], _ => rfl
  | x :: rest, pa => by
      rw [cells]
      show rowStep c (x :: rest)
          (levRec pa q :: levRec (x :: pa) q :: cells q (x :: pa) rest)
          (levRec pa (c :: q)) = cells (c :: q) pa (x :: rest)
      rw [rowStep]
      have hv : min (min (levRec (x :: pa) q + 1) (levRec pa (c :: q) + 1))
          (levRec pa q + (if x = c then 0 else 1)) = levRec (x :: pa) (c :: q) := by
        rw [levRec_cons_cons]
        omega
      rw [cells, ← rowStep_cells c q rest (x :: pa)]
      simp only [hv]

theorem outerRows_fullRow (a : List Char) :
    ∀ (cs q : List Char),
      outerRows a cs (q.length + 1) (fullRow q a) = fullRow (cs.reverse ++ q) a
  | [], q => by simp [outerRows]
  | c :: cs, q => by
      rw [outerRows]
      have hrow : (q.length + 1) :: rowStep c a (fullRow q a) (q.length + 1) =
          fullRow (c :: q) a := by
        have h1 : levRec ([] : List Char) (c :: q) = q.length + 1 := by
          rw [levRec_nil_left]; rfl
        rw [fullRow, fullRow, ← h1, rowStep_cells c q a []]
      rw [hrow]
      have := outerRows_fullRow a cs (c :: q)
      simp only [List.length_cons] at this
      rw [this]
      simp

/-- The initial `previous = list(range(la + 1))` is the row for the empty
`b`-prefix. -/
theorem cells_nil_eq : ∀ (rest pa : List Char),
    cells [] pa rest = List.range' (pa.length + 1) rest.length
  | [], _ => rfl
  | x :: rest, pa => by
      rw [cells, levRec_nil_right, cells_nil_eq rest (x :: pa)]
      simp [List.range'_succ]

theorem fullRow_nil (a : List Char) :
    fullRow [] a = List.range (a.length + 1) := by
  rw [fullRow, levRec_nil_left, cells_nil_eq a [], List.range_eq_range']
  simp [List.range'_succ]

/-- Reading off `previous[la]`: the last cell is the full distance. -/
theorem cells_getD : ∀ (rest pa : List Char) (q : List Char), rest ≠ [] →
    (cells q pa rest).getD (rest.length - 1) 0 = levRec (rest.reverse ++ pa) q
  | [], _, _, h => absurd rfl h
  | [x], pa, q, _ => by simp [cells]
  | x :: y :: rest, pa, q, _ => by
      rw [cells]
      have ih := cells_getD (y :: rest) (x :: pa) q (by simp)
      simp only [List.length_cons] at ih ⊢
      simp only [Nat.add_sub_cancel] at ih ⊢
      rw [List.getD_cons_succ, ih]
      simp

theorem fullRow_getD (q a : List Char) :
    (fullRow q a).getD a.length 0 = levRec a.reverse q := by
  cases a with
  | nil => simp [fullRow]
  | cons x xs =>
      rw [fullRow]
      have h : (x :: xs).length = ((x :: xs).length - 1) + 1 := by simp
      rw [h, List.getD_cons_succ, cells_getD (x :: xs) [] q (by simp)]
      simp

/-- The DP tail computes the recurrence. -/
theorem levCore_eq (a b : List Char) : levCore a b = levRec a b := by
  rw [levCore, ← fullRow_nil a]
  have h := outerRows_fullRow a b []
  simp only [List.length_nil, List.append_nil] at h
  rw [show (0 + 1) = 1 from rfl] at h
  rw [h, fullRow_getD, levRec_reverse]

/-- The embedded `levenshtein` agrees with the textbook recurrence. -/
theorem levenshtein_eq_levRec (a b : List Char) : levenshtein a b = levRec a b := by
  rw [levenshtein]
  rcases eq_or_ne a b with rfl | hab
  · rw [if_pos rfl, levRec_self]
  · rw [if_neg hab]
    rcases eq_or_ne a.length 0 with ha | ha
    · rw [if_pos ha]
      rw [List.length_eq_zero] at ha
      subst ha
      rw [levRec_nil_left]
    · rw [if_neg ha]
      rcases eq_or_ne b.length 0 with hb | hb
      · rw [if_pos hb]
        rw [List.length_eq_zero] at hb
        subst hb
        rw [levRec_nil_right]
      · rw [if_neg hb]
        by_cases hl : a.length > b.length
        · rw [if_pos hl, levCore_eq, levRec_comm]
        · rw [if_neg hl, levCore_eq]

/-- The distance never exceeds the longer input's length. -/
theorem levRec_le_max : ∀ a b : List Char, levRec a b ≤ max a.length b.length
  | [], ys => by simp [levRec_nil_left]
  | x :: xs, [] => by simp [levRec_nil_right]
  | x :: xs, y :: ys => by
      have ih := levRec_le_max xs ys
      rw [levRec_cons_cons]
      rcases eq_or_ne x y with rfl | hxy
      · rw [if_pos rfl]; simp only [List.length_cons]; omega
      · rw [if_neg hxy]; simp only [List.length_cons]; omega
termination_by a b => a.length + b.length
decreasing_by all_goals simp_arith

/-! ## Aggregation state (main.py lines 306-314)

The six `defaultdict(int)` tables, keyed by the casefolded group key. -/

structure Agg where
  added_lines : String → Int
  deleted_lines : String → Int
  commits_count : String → Int
  added_chars : String → Int
  deleted_chars : String → Int
  modified_chars : String → Int

def initAgg : Agg :=
  { added_lines := fun _ => 0, deleted_lines := fun _ => 0,
    commits_count := fun _ => 0, added_chars := fun _ => 0,
    deleted_chars := fun _ => 0, modified_chars := fun _ => 0 }

/-- `table[key] += d` on a `defaultdict(int)`. -/
def bumpBy (f : String → Int) (key : String) (d : Int) : String → Int :=
  fun k => if k = key then f key + d else f k

theorem bumpBy_bumpBy (f : String → Int) (key : String) (d1 d2 : Int) :
    bumpBy (bumpBy f key d1) key d2 = bumpBy f key (d1 + d2) := by
  funext k
  simp only [bumpBy]
  by_cases h : k = key <;> simp [h, add_assoc]

theorem bumpBy_zero (f : String → Int) (key : String) :
    bumpBy f key 0 = f := by
  funext k
  rw [bumpBy]
  by_cases h : k = key <;> simp [h]

theorem bumpBy_apply_ne (f : String → Int) (key k : String) (d : Int)
    (h : k ≠ key) : bumpBy f key d k = f k := by
  rw [bumpBy, if_neg h]

theorem bumpBy_apply_self (f : String → Int) (key : String) (d : Int) :
    bumpBy f key d key = f key + d := by
  rw [bumpBy, if_pos rfl]

/-- The two hunk line buffers (`del_buffer`, `add_buffer`). -/
structure Buffers where
  del_buffer : List (List Char)
  add_buffer : List (List Char)

/-- The data of the `logger.debug` call inside `flush_buffers`
(main.py lines 395-402): the flush's only observable signal. -/
structure FlushEvent where
  key : String
  pairs : Nat
  paired_modified_total : Nat
  surplus_added : Nat
  surplus_deleted : Nat

/-- `flush_buffers` (main.py lines 373-404).  Empty buffers: silent no-op.
Otherwise: positionally pair the first `pairs = min(len(del), len(add))`
lines, add each pair's Levenshtein distance to `modified_chars[key]`,
add surplus added / deleted line lengths to `added_chars` / `deleted_chars`,
emit one debug event, and clear both buffers. -/
def flush_buffers (local_key : String) (agg : Agg) (bufs : Buffers) :
    Agg × Buffers × Option FlushEvent :=
  if bufs.del_buffer = [] ∧ bufs.add_buffer = [] then (agg, bufs, none)
  else
    let pairs := min bufs.del_buffer.length bufs.add_buffer.length
    let pr := (List.range pairs).foldl (fun (p : Agg × Nat) idx =>
      let dline := bufs.del_buffer.getD idx []
      let aline := bufs.add_buffer.getD idx []
      let dist := levenshtein dline aline
      ({ p.1 with modified_chars := bumpBy p.1.modified_chars local_key (dist : Int) },
        p.2 + dist)) (agg, 0)
    let agg1 := pr.1
    let paired_modified_total := pr.2
    let agg2 :=
      if pairs < bufs.add_buffer.length then
        (bufs.add_buffer.drop pairs).foldl (fun a line =>
          { a with added_chars := bumpBy a.added_chars local_key (line.length : Int) }) agg1
      else agg1
    let agg3 :=
      if pairs < bufs.del_buffer.length then
        (bufs.del_buffer.drop pairs).foldl (fun a line =>
          { a with deleted_chars := bumpBy a.deleted_chars local_key (line.length : Int) }) agg2
      else agg2
    let ev : FlushEvent :=
      { key := local_key, pairs := pairs,
        paired_modified_total := paired_modified_total,
        surplus_added := bufs.add_buffer.length - pairs,
        surplus_deleted := bufs.del_buffer.length - pairs }
    (agg3, { del_buffer := [], add_buffer := [] }, some ev)

/-! ### Characterizing the three folds inside `flush_buffers` -/

theorem flush_pair_fold (local_key : String) (dbuf abuf : List (List Char)) :
    ∀ (L : List Nat) (a : Agg) (t : Nat),
      L.foldl (fun (p : Agg × Nat) idx =>
        let dline := dbuf.getD idx []
        let aline := abuf.getD idx []
        let dist := levenshtein dline aline
        ({ p.1 with modified_chars := bumpBy p.1.modified_chars local_key (dist : Int) },
          p.2 + dist)) (a, t) =
      ({ a with modified_chars := (bumpBy a.modified_chars local_key
          (((L.map (fun idx => levenshtein (dbuf.getD idx []) (abuf.getD idx []))).sum : Nat) : Int)) },
        t + (L.map (fun idx => levenshtein (dbuf.getD idx []) (abuf.getD idx []))).sum)
  | [], a, t => by simp [bumpBy_zero]
  | idx :: L, a, t => by
      rw [List.foldl_cons, flush_pair_fold local_key dbuf abuf L]
      simp only [List.map_cons, List.sum_cons]
      rw [bumpBy_bumpBy]
      simp only [Prod.mk.injEq]
      constructor
      · push_cast
        rfl
      · omega

theorem flush_added_fold (local_key : String) :
    ∀ (L : List (List Char)) (a : Agg),
      L.foldl (fun a line =>
        { a with added_chars := bumpBy a.added_chars local_key (line.length : Int) }) a =
      { a with added_chars := (bumpBy a.added_chars local_key
          (((L.map List.length).sum : Nat) : Int)) }
  | [], a => by simp [bumpBy_zero]
  | line :: L, a => by
      rw [List.foldl_cons, flush_added_fold local_key L]
      simp only [List.map_cons, List.sum_cons]
      rw [bumpBy_bumpBy]
      push_cast
      rfl

theorem flush_deleted_fold (local_key : String) :
    ∀ (L : List (List Char)) (a : Agg),
      L.foldl (fun a line =>
        { a with deleted_chars := bumpBy a.deleted_chars local_key (line.length : Int) }) a =
      { a with deleted_chars := (bumpBy a.deleted_chars local_key
          (((L.map List.length).sum : Nat) : Int)) }
  | [], a => by simp [bumpBy_zero]
  | line :: L, a => by
      rw [List.foldl_cons, flush_deleted_fold local_key L]
      simp only [List.map_cons, List.sum_cons]
      rw [bumpBy_bumpBy]
      push_cast
      rfl

/-- The Levenshtein contribution of the paired prefix of the two buffers. -/
def pairedDistSum (dbuf abuf : List (List Char)) : Nat :=
  ((List.range (min dbuf.length abuf.length)).map
    (fun idx => levenshtein (dbuf.getD idx []) (abuf.getD idx []))).sum

/-- Total character length of the lines of `L`. -/
def charSum (L : List (List Char)) : Nat := (L.map List.length).sum

/-- Full functional characterization of `flush_buffers`. -/
theorem flush_buffers_spec (local_key : String) (agg : Agg) (bufs : Buffers) :
    flush_buffers local_key agg bufs =
      if bufs.del_buffer = [] ∧ bufs.add_buffer = [] then (agg, bufs, none)
      else
        let pairs := min bufs.del_buffer.length bufs.add_buffer.length
        ({ agg with
            modified_chars := (bumpBy agg.modified_chars local_key
              ((pairedDistSum bufs.del_buffer bufs.add_buffer : Nat) : Int)),
            added_chars := (bumpBy agg.added_chars local_key
              ((charSum (bufs.add_buffer.drop pairs) : Nat) : Int)),
            deleted_chars := (bumpBy agg.deleted_chars local_key
              ((charSum (bufs.del_buffer.drop pairs) : Nat) : Int)) },
          { del_buffer := [], add_buffer := [] },
          some { key := local_key, pairs := pairs,
                 paired_modified_total := pairedDistSum bufs.del_buffer bufs.add_buffer,
                 surplus_added := bufs.add_buffer.length - pairs,
                 surplus_deleted := bufs.del_buffer.length - pairs }) := by
  rw [flush_buffers]
  by_cases h : bufs.del_buffer = [] ∧ bufs.add_buffer = []
  · rw [if_pos h, if_pos h]
  · rw [if_neg h, if_neg h]
    simp only
    rw [flush_pair_fold]
    simp only
    rw [pairedDistSum, charSum, charSum]
    by_cases ha : min bufs.del_buffer.length bufs.add_buffer.length < bufs.add_buffer.length
    · rw [if_pos ha, flush_added_fold]
      by_cases hd : min bufs.del_buffer.length bufs.add_buffer.length < bufs.del_buffer.length
      · rw [if_pos hd, flush_deleted_fold]
        simp
      · rw [if_neg hd]
        have hdrop : bufs.del_buffer.drop
            (min bufs.del_buffer.length bufs.add_buffer.length) = [] := by
          rw [List.drop_eq_nil_iff]
          omega
        rw [hdrop]
        simp [bumpBy_zero]
    · rw [if_neg ha]
      have hdrop : bufs.add_buffer.drop
          (min bufs.del_buffer.length bufs.add_buffer.length) = [] := by
        rw [List.drop_eq_nil_iff]
        omega
      rw [hdrop]
      by_cases hd : min bufs.del_buffer.length bufs.add_buffer.length < bufs.del_buffer.length
      · rw [if_pos hd, flush_deleted_fold]
        simp [bumpBy_zero]
      · rw [if_neg hd]
        have hdrop2 : bufs.del_buffer.drop
            (min bufs.del_buffer.length bufs.add_buffer.length) = [] := by
          rw [List.drop_eq_nil_iff]
          omega
        rw [hdrop2]
        simp [bumpBy_zero]

/-! ## DiffWalker: the per-commit patch scan (main.py lines 368-454) -/

/-- Walker state for one commit's patch: the aggregation tables, the
`in_hunk` flag and the two line buffers. -/
structure HunkSt where
  agg : Agg
  in_hunk : Bool
  del_buffer : List (List Char)
  add_buffer : List (List Char)

/-- `if del_buffer or add_buffer: flush_buffers(key)` — the guarded flush at
every call site of `flush_buffers` in the walker.  The debug event is glue
I/O and is discarded by the walker model. -/
def flushIfBuffered (key : String) (st : HunkSt) : HunkSt :=
  if st.del_buffer ≠ [] ∨ st.add_buffer ≠ [] then
    let r := flush_buffers key st.agg
      { del_buffer := st.del_buffer, add_buffer := st.add_buffer }
    { st with agg := r.1, del_buffer := r.2.1.del_buffer,
              add_buffer := r.2.1.add_buffer }
  else st

/-- One iteration of `for raw in patch.splitlines()` (main.py lines 407-450):
file-header lines flush and leave hunk state; `@@` lines flush and enter hunk
state; outside a hunk everything else is ignored; inside a hunk, blank lines
flush, `-`/`+` lines are counted and buffered (skipping the
`\ No newline` marker), and any other line is a context line and flushes. -/
def stepLine (key : String) (st : HunkSt) (raw : List Char) : HunkSt :=
  if List.isPrefixOf "diff ".toList raw || List.isPrefixOf "index ".toList raw ||
      List.isPrefixOf "--- ".toList raw || List.isPrefixOf "+++ ".toList raw then
    { flushIfBuffered key st with in_hunk := false }
  else if List.isPrefixOf "@@".toList raw then
    { flushIfBuffered key st with in_hunk := true }
  else if !st.in_hunk then st
  else
    match raw with
    | [] => flushIfBuffered key st
    | first :: line_content =>
        if first = '-' then
          if List.isPrefixOf "\\ No newline".toList line_content then st
          else
            { st with
                agg := { st.agg with
                  deleted_lines := bumpBy st.agg.deleted_lines key 1 },
                del_buffer := st.del_buffer ++ [line_content] }
        else if first = '+' then
          if List.isPrefixOf "\\ No newline".toList line_content then st
          else
            { st with
                agg := { st.agg with
                  added_lines := bumpBy st.agg.added_lines key 1 },
                add_buffer := st.add_buffer ++ [line_content] }
        else flushIfBuffered key st

/-- Walk one commit's patch lines and perform the final end-of-patch flush
(main.py lines 406-454). -/
def walkPatch (key : String) (patch_lines : List (List Char)) (agg : Agg) : HunkSt :=
  let st0 : HunkSt :=
    { agg := agg, in_hunk := false, del_buffer := [], add_buffer := [] }
  flushIfBuffered key (patch_lines.foldl (stepLine key) st0)

/-! ## AuthorAggregator: commit records and the main loop
(main.py lines 326-366) -/

/-- The grouping switch (`--group-by name|email`). -/
inductive GroupBy
  | name
  | email

/-- One commit record as consumed by the core: hash, author identity, and
the retrieved patch.  `fetch = none` models the case where both `git show`
invocations (zero-context and fallback) failed; `fetch = some lines` is the
patch text split into physical lines (`""` splits to `[]`). -/
structure Commit where
  chash : String
  aname : String
  aemail : String
  fetch : Option (List (List Char))

/-- Full run state: the counters plus the canonicalization tables
(main.py lines 318-323). -/
structure RunSt where
  agg : Agg
  canonical_name : String → Option String
  canonical_email : String → Option String
  emails_by_name : String → String → Int
  author_names_by_email : String → String → Int

def initRunSt : RunSt :=
  { agg := initAgg, canonical_name := fun _ => none,
    canonical_email := fun _ => none,
    emails_by_name := fun _ _ => 0, author_names_by_email := fun _ _ => 0 }

/-- The group key of a commit: the casefolded name or email, by mode.  The
Unicode `str.casefold` itself is Python library code outside this
repository, so it is a parameter of the model. -/
def keyOf (casefold : String → String) (group_by : GroupBy) (c : Commit) : String :=
  match group_by with
  | GroupBy.name => casefold c.aname
  | GroupBy.email => casefold c.aemail

/-- The body of `for i, (chash, aname, aemail) in enumerate(commits)`
(main.py lines 326-366): record the identity variants, bump
`commits_count[key]`, then fetch and walk the patch.  A failed fetch
(`fetch = none`, main.py lines 352-360) logs and continues; an empty patch
(main.py lines 362-366) continues. -/
def processCommit (casefold : String → String) (group_by : GroupBy)
    (st : RunSt) (c : Commit) : RunSt :=
  let key := keyOf casefold group_by c
  let st1 :=
    match group_by with
    | GroupBy.name =>
        { st with
            canonical_name := (fun k => if k = key
              then some ((st.canonical_name key).getD c.aname)
              else st.canonical_name k),
            emails_by_name := (fun k e => if k = key ∧ e = c.aemail
              then st.emails_by_name k e + 1
              else st.emails_by_name k e) }
    | GroupBy.email =>
        { st with
            canonical_email := (fun k => if k = key
              then some ((st.canonical_email key).getD c.aemail)
              else st.canonical_email k),
            author_names_by_email := (fun k n => if k = key ∧ n = c.aname
              then st.author_names_by_email k n + 1
              else st.author_names_by_email k n) }
  let st2 := { st1 with agg := { st1.agg with
    commits_count := bumpBy st1.agg.commits_count key 1 } }
  match c.fetch with
  | none => st2
  | some patch_lines =>
      if patch_lines = [] then st2
      else { st2 with agg := (walkPatch key patch_lines st2.agg).agg }

/-- The whole commit loop. -/
def processCommits (casefold : String → String) (group_by : GroupBy)
    (st : RunSt) (cs : List Commit) : RunSt :=
  cs.foldl (processCommit casefold group_by) st

/-! ## Output rows (main.py lines 460-536)

Only the numeric columns are modelled; the `author`/`email` display columns
are rendering glue over the variant tables. -/

/-- The numeric cells of one CSV row (main.py lines 510-536). -/
structure Row where
  commits : Int
  added_l : Int
  deleted_l : Int
  added_plus_deleted_l : Int
  net_l : Int
  a_chars : Int
  d_chars : Int
  m_chars : Int
  added_or_modified : Int
  net_chars : Int

/-- Build the row of one group key (main.py lines 510-536). -/
def outputRow (agg : Agg) (key : String) : Row :=
  let added_l := agg.added_lines key
  let deleted_l := agg.deleted_lines key
  let a_chars := agg.added_chars key
  let d_chars := agg.deleted_chars key
  let m_chars := agg.modified_chars key
  { commits := agg.commits_count key,
    added_l := added_l,
    deleted_l := deleted_l,
    added_plus_deleted_l := added_l + deleted_l,
    net_l := added_l - deleted_l,
    a_chars := a_chars,
    d_chars := d_chars,
    m_chars := m_chars,
    added_or_modified := m_chars + a_chars,
    net_chars := a_chars - d_chars }

/-- `sort_key` (main.py lines 491-492). -/
def sort_key (agg : Agg) (a : String) : Int :=
  agg.modified_chars a + agg.added_chars a

/-- `sorted(authors, key=sort_key, reverse=True)` (main.py line 494):
a stable sort into descending `sort_key` order. -/
def sortedAuthors (agg : Agg) (authors : List String) : List String :=
  authors.mergeSort (fun a b => decide (sort_key agg b ≤ sort_key agg a))

/-- The output rows, in the order they are written. -/
def outputRows (agg : Agg) (authors : List String) : List Row :=
  (sortedAuthors agg authors).map (outputRow agg)

/-! ### Frame lemmas: which counters each phase can touch -/

theorem flush_buffers_frame (k : String) (agg : Agg) (bufs : Buffers) :
    (flush_buffers k agg bufs).1.commits_count = agg.commits_count ∧
    (flush_buffers k agg bufs).1.added_lines = agg.added_lines ∧
    (flush_buffers k agg bufs).1.deleted_lines = agg.deleted_lines := by
  rw [flush_buffers_spec]
  split <;> simp

theorem flushIfBuffered_frame (key : String) (st : HunkSt) :
    (flushIfBuffered key st).agg.commits_count = st.agg.commits_count ∧
    (flushIfBuffered key st).agg.added_lines = st.agg.added_lines ∧
    (flushIfBuffered key st).agg.deleted_lines = st.agg.deleted_lines ∧
    (flushIfBuffered key st).in_hunk = st.in_hunk := by
  rw [flushIfBuffered]
  split
  · have h := flush_buffers_frame key st.agg
      { del_buffer := st.del_buffer, add_buffer := st.add_buffer }
    exact ⟨h.1, h.2.1, h.2.2, rfl⟩
  · exact ⟨rfl, rfl, rfl, rfl⟩

theorem stepLine_commits (key : String) (st : HunkSt) (raw : List Char) :
    (stepLine key st raw).agg.commits_count = st.agg.commits_count := by
  rw [stepLine.eq_def]
  split
  · exact (flushIfBuffered_frame key st).1
  split
  · exact (flushIfBuffered_frame key st).1
  split
  · rfl
  split
  · exact (flushIfBuffered_frame key st).1
  split
  · split <;> rfl
  split
  · split <;> rfl
  exact (flushIfBuffered_frame key st).1

theorem walkPatch_commits (key : String) (patch_lines : List (List Char)) (agg : Agg) :
    (walkPatch key patch_lines agg).agg.commits_count = agg.commits_count := by
  rw [walkPatch]
  rw [(flushIfBuffered_frame key _).1]
  have main : ∀ (ls : List (List Char)) (s : HunkSt),
      ((ls.foldl (stepLine key) s).agg.commits_count = s.agg.commits_count) := by
    intro ls
    induction ls with
    | nil => intro s; rfl
    | cons l ls ih =>
        intro s
        rw [List.foldl_cons, ih, stepLine_commits]
  exact main patch_lines _

/-- What one commit does to `commits_count`: exactly one bump at its key,
in every fetch outcome. -/
theorem processCommit_commits (casefold : String → String) (group_by : GroupBy)
    (st : RunSt) (c : Commit) :
    (processCommit casefold group_by st c).agg.commits_count =
      bumpBy st.agg.commits_count (keyOf casefold group_by c) 1 := by
  rw [processCommit.eq_def]
  cases group_by <;>
    rcases c with ⟨ch, an, ae, f⟩ <;>
    cases f with
    | none => rfl
    | some patch_lines =>
        by_cases hp : patch_lines = []
        · simp [hp]
        · simp [hp, walkPatch_commits]

/-- With no patch to walk (fetch failure or empty patch), the line and
character counters are untouched. -/
theorem processCommit_noWalk_frame (casefold : String → String) (group_by : GroupBy)
    (st : RunSt) (ch an ae : String) (f : Option (List (List Char)))
    (hf : f = none ∨ f = some []) :
    (processCommit casefold group_by st ⟨ch, an, ae, f⟩).agg.added_lines =
        st.agg.added_lines ∧
    (processCommit casefold group_by st ⟨ch, an, ae, f⟩).agg.deleted_lines =
        st.agg.deleted_lines ∧
    (processCommit casefold group_by st ⟨ch, an, ae, f⟩).agg.added_chars =
        st.agg.added_chars ∧
    (processCommit casefold group_by st ⟨ch, an, ae, f⟩).agg.deleted_chars =
        st.agg.deleted_chars ∧
    (processCommit casefold group_by st ⟨ch, an, ae, f⟩).agg.modified_chars =
        st.agg.modified_chars := by
  rcases hf with rfl | rfl <;> cases group_by <;>
    exact ⟨rfl, rfl, rfl, rfl, rfl⟩

/-! ### Non-negativity invariant -/

/-- All six counters are non-negative at every key. -/
def AggNonneg (agg : Agg) : Prop :=
  ∀ k, 0 ≤ agg.added_lines k ∧ 0 ≤ agg.deleted_lines k ∧
    0 ≤ agg.commits_count k ∧ 0 ≤ agg.added_chars k ∧
    0 ≤ agg.deleted_chars k ∧ 0 ≤ agg.modified_chars k

theorem initAgg_nonneg : AggNonneg initAgg := by
  intro k
  simp [initAgg]

theorem bumpBy_nonneg {f : String → Int} {d : Int}
    (hf : ∀ k, 0 ≤ f k) (hd : 0 ≤ d) (key : String) :
    ∀ k, 0 ≤ bumpBy f key d k := by
  intro k
  rw [bumpBy]
  split
  · have := hf key
    omega
  · exact hf k

theorem flush_buffers_nonneg (k : String) (agg : Agg) (bufs : Buffers)
    (h : AggNonneg agg) : AggNonneg (flush_buffers k agg bufs).1 := by
  rw [flush_buffers_spec]
  split
  · exact h
  · intro k'
    refine ⟨(h k').1, (h k').2.1, (h k').2.2.1, ?_, ?_, ?_⟩
    · exact bumpBy_nonneg (fun k'' => (h k'').2.2.2.1) (Int.natCast_nonneg _) k k'
    · exact bumpBy_nonneg (fun k'' => (h k'').2.2.2.2.1) (Int.natCast_nonneg _) k k'
    · exact bumpBy_nonneg (fun k'' => (h k'').2.2.2.2.2) (Int.natCast_nonneg _) k k'

theorem flushIfBuffered_nonneg (key : String) (st : HunkSt)
    (h : AggNonneg st.agg) : AggNonneg (flushIfBuffered key st).agg := by
  rw [flushIfBuffered]
  split
  · exact flush_buffers_nonneg key st.agg _ h
  · exact h

theorem stepLine_nonneg (key : String) (st : HunkSt) (raw : List Char)
    (h : AggNonneg st.agg) : AggNonneg (stepLine key st raw).agg := by
  rw [stepLine.eq_def]
  split
  · exact flushIfBuffered_nonneg key st h
  split
  · exact flushIfBuffered_nonneg key st h
  split
  · exact h
  split
  · exact flushIfBuffered_nonneg key st h
  split
  · split
    · exact h
    · intro k'
      refine ⟨(h k').1, ?_, (h k').2.2.1, (h k').2.2.2.1,
        (h k').2.2.2.2.1, (h k').2.2.2.2.2⟩
      exact bumpBy_nonneg (fun k'' => (h k'').2.1) (by omega) key k'
  split
  · split
    · exact h
    · intro k'
      refine ⟨?_, (h k').2.1, (h k').2.2.1, (h k').2.2.2.1,
        (h k').2.2.2.2.1, (h k').2.2.2.2.2⟩
      exact bumpBy_nonneg (fun k'' => (h k'').1) (by omega) key k'
  exact flushIfBuffered_nonneg key st h

theorem walkPatch_nonneg (key : String) (patch_lines : List (List Char))
    (agg : Agg) (h : AggNonneg agg) : AggNonneg (walkPatch key patch_lines agg).agg := by
  rw [walkPatch]
  apply flushIfBuffered_nonneg
  have main : ∀ (ls : List (List Char)) (s : HunkSt), AggNonneg s.agg →
      AggNonneg ((ls.foldl (stepLine key) s).agg) := by
    intro ls
    induction ls with
    | nil => intro s hs; exact hs
    | cons l ls ih =>
        intro s hs
        rw [List.foldl_cons]
        exact ih _ (stepLine_nonneg key s l hs)
  exact main patch_lines _ h

theorem processCommit_nonneg (casefold : String → String) (group_by : GroupBy)
    (st : RunSt) (c : Commit) (h : AggNonneg st.agg) :
    AggNonneg (processCommit casefold group_by st c).agg := by
  rw [processCommit.eq_def]
  rcases c with ⟨ch, an, ae, f⟩
  have hbump : ∀ (a : Agg) (key : String), AggNonneg a →
      AggNonneg { a with commits_count := bumpBy a.commits_count key 1 } := by
    intro a key ha k'
    refine ⟨(ha k').1, (ha k').2.1, ?_, (ha k').2.2.2.1,
      (ha k').2.2.2.2.1, (ha k').2.2.2.2.2⟩
    exact bumpBy_nonneg (fun k'' => (ha k'').2.2.1) (by omega) key k'
  cases group_by <;> cases f with
  | none => exact hbump _ _ h
  | some patch_lines =>
      by_cases hp : patch_lines = []
      · simp only [hp, if_pos rfl]
        exact hbump _ _ h
      · simp only [hp, if_neg hp]
        exact walkPatch_nonneg _ _ _ (hbump _ _ h)

theorem processCommits_nonneg (casefold : String → String) (group_by : GroupBy)
    (cs : List Commit) :
    ∀ (st : RunSt), AggNonneg st.agg →
      AggNonneg (processCommits casefold group_by st cs).agg := by
  induction cs with
  | nil => intro st h; exact h
  | cons c cs ih =>
      intro st h
      rw [processCommits, List.foldl_cons]
      exact ih _ (processCommit_nonneg casefold group_by st c h)

/-- ASCII lowercasing, a concrete instance of a casefolding function used to
instantiate witnesses. -/
def lowerChar (c : Char) : Char :=
  if 64 < c.toNat ∧ c.toNat < 91 then Char.ofNat (c.toNat + 32) else c

def asciiLower (s : String) : String := String.mk (s.data.map lowerChar)

/-! ## The claims -/

/-- C1: for every pair of finite strings, `levenshtein` returns the minimum
number of single-character insertions, deletions and substitutions needed to
transform the first into the second (unweighted, no transpositions); as a
pure function of its arguments it is deterministic and side-effect free. -/
theorem levenshtein_is_min_edit_distance (a b : List Char) :
    Aligns a b (levenshtein a b) ∧ ∀ n, Aligns a b n → levenshtein a b ≤ n := by
  rw [levenshtein_eq_levRec]
  exact ⟨aligns_levRec a b, fun n h => levRec_le_of_aligns h⟩

/-- Witness for C1 at a concrete input: `abc` and `abd` align at the
computed distance, and the explicit 1-edit script bounds it by 1. -/
theorem levenshtein_is_min_edit_distance_witness :
    Aligns ['a', 'b', 'c'] ['a', 'b', 'd']
        (levenshtein ['a', 'b', 'c'] ['a', 'b', 'd']) ∧
    levenshtein ['a', 'b', 'c'] ['a', 'b', 'd'] ≤ 1 :=
  ⟨(levenshtein_is_min_edit_distance ['a', 'b', 'c'] ['a', 'b', 'd']).1,
   (levenshtein_is_min_edit_distance ['a', 'b', 'c'] ['a', 'b', 'd']).2 1
     (Aligns.keep 'a' (Aligns.keep 'b' (Aligns.subst 'c' 'd' Aligns.nil)))⟩

/-- C10: `levenshtein a b` never exceeds `max (length a) (length b)`; in
particular each positional pair's contribution to `modified_chars` is at
most the length of the longer line of the pair. -/
theorem levenshtein_le_max_len (a b : List Char) :
    levenshtein a b ≤ max a.length b.length := by
  rw [levenshtein_eq_levRec]
  exact levRec_le_max a b

/-- C2: a flush with `p = min (len del) (len add)` adds the sum of the
positional pair distances to `modified_chars[k]`, the total length of
`del_buffer[p:]` to `deleted_chars[k]`, the total length of `add_buffer[p:]`
to `added_chars[k]`, and leaves both buffers empty. -/
theorem flush_buffers_pairing (k : String) (agg : Agg) (bufs : Buffers) :
    ((flush_buffers k agg bufs).1.modified_chars k =
        agg.modified_chars k +
          ((((List.range (min bufs.del_buffer.length bufs.add_buffer.length)).map
            (fun idx => levenshtein (bufs.del_buffer.getD idx [])
              (bufs.add_buffer.getD idx []))).sum : Nat) : Int)) ∧
    ((flush_buffers k agg bufs).1.deleted_chars k =
        agg.deleted_chars k +
          ((((bufs.del_buffer.drop
              (min bufs.del_buffer.length bufs.add_buffer.length)).map
            List.length).sum : Nat) : Int)) ∧
    ((flush_buffers k agg bufs).1.added_chars k =
        agg.added_chars k +
          ((((bufs.add_buffer.drop
              (min bufs.del_buffer.length bufs.add_buffer.length)).map
            List.length).sum : Nat) : Int)) ∧
    (flush_buffers k agg bufs).2.1.del_buffer = [] ∧
    (flush_buffers k agg bufs).2.1.add_buffer = [] := by
  rw [flush_buffers_spec]
  by_cases h : bufs.del_buffer = [] ∧ bufs.add_buffer = []
  · rw [if_pos h]
    obtain ⟨h1, h2⟩ := h
    simp [h1, h2]
  · rw [if_neg h]
    refine ⟨?_, ?_, ?_, ?_, ?_⟩ <;>
      simp [pairedDistSum, charSum, bumpBy_apply_self]

/-- C8: a flush invoked with both buffers empty changes no counter, leaves
the buffers empty, and emits no debug event. -/
theorem flush_buffers_empty_noop (k : String) (agg : Agg) :
    flush_buffers k agg { del_buffer := [], add_buffer := [] } =
      (agg, { del_buffer := [], add_buffer := [] }, none) := by
  rw [flush_buffers]
  simp

/-- C3 as stated is false: a commit whose diff retrieval fails (both `git
show` calls raise) still contributes to a per-key counter, because
`commits_count[key] += 1` runs before the patch is fetched. -/
theorem fetch_fail_contributes_commit_count :
    (processCommits (fun s => s) GroupBy.name initRunSt
        [{ chash := "h1", aname := "Alice", aemail := "a@x",
           fetch := none }]).agg.commits_count "Alice" ≠
      initRunSt.agg.commits_count "Alice" := by
  decide

/-- C3 amended: a commit whose diff retrieval fails does not abort the run —
the fold continues with the remaining commits — and contributes nothing to
any line or character counter; it does, however, still increment
`commits_count` for its key by exactly 1 (the increment precedes the fetch). -/
theorem fetch_fail_skips_diff_contribution (casefold : String → String)
    (group_by : GroupBy) (st : RunSt) (ch an ae : String) (rest : List Commit) :
    processCommits casefold group_by st
        ({ chash := ch, aname := an, aemail := ae, fetch := none } :: rest) =
      processCommits casefold group_by
        (processCommit casefold group_by st
          { chash := ch, aname := an, aemail := ae, fetch := none }) rest ∧
    (∀ k,
      (processCommit casefold group_by st
          { chash := ch, aname := an, aemail := ae, fetch := none }).agg.added_lines k =
        st.agg.added_lines k ∧
      (processCommit casefold group_by st
          { chash := ch, aname := an, aemail := ae, fetch := none }).agg.deleted_lines k =
        st.agg.deleted_lines k ∧
      (processCommit casefold group_by st
          { chash := ch, aname := an, aemail := ae, fetch := none }).agg.added_chars k =
        st.agg.added_chars k ∧
      (processCommit casefold group_by st
          { chash := ch, aname := an, aemail := ae, fetch := none }).agg.deleted_chars k =
        st.agg.deleted_chars k ∧
      (processCommit casefold group_by st
          { chash := ch, aname := an, aemail := ae, fetch := none }).agg.modified_chars k =
        st.agg.modified_chars k) ∧
    (processCommit casefold group_by st
        { chash := ch, aname := an, aemail := ae, fetch := none }).agg.commits_count
        (keyOf casefold group_by { chash := ch, aname := an, aemail := ae, fetch := none }) =
      st.agg.commits_count
        (keyOf casefold group_by
          { chash := ch, aname := an, aemail := ae, fetch := none }) + 1 := by
  refine ⟨rfl, ?_, ?_⟩
  · intro k
    have h := processCommit_noWalk_frame casefold group_by st ch an ae none (Or.inl rfl)
    exact ⟨congrFun h.1 k, congrFun h.2.1 k, congrFun h.2.2.1 k,
      congrFun h.2.2.2.1 k, congrFun h.2.2.2.2 k⟩
  · rw [processCommit_commits, bumpBy_apply_self]

/-- C4: a commit whose diff text is empty increments its key's
`commits_count` by exactly 1 and leaves every line and character counter of
every key unchanged; the model handles it as a normal case, not an error. -/
theorem empty_patch_zero_contribution (casefold : String → String)
    (group_by : GroupBy) (st : RunSt) (ch an ae : String) :
    (processCommit casefold group_by st
        { chash := ch, aname := an, aemail := ae, fetch := some [] }).agg.commits_count
        (keyOf casefold group_by
          { chash := ch, aname := an, aemail := ae, fetch := some [] }) =
      st.agg.commits_count
        (keyOf casefold group_by
          { chash := ch, aname := an, aemail := ae, fetch := some [] }) + 1 ∧
    (∀ k,
      (processCommit casefold group_by st
          { chash := ch, aname := an, aemail := ae, fetch := some [] }).agg.added_lines k =
        st.agg.added_lines k ∧
      (processCommit casefold group_by st
          { chash := ch, aname := an, aemail := ae, fetch := some [] }).agg.deleted_lines k =
        st.agg.deleted_lines k ∧
      (processCommit casefold group_by st
          { chash := ch, aname := an, aemail := ae, fetch := some [] }).agg.added_chars k =
        st.agg.added_chars k ∧
      (processCommit casefold group_by st
          { chash := ch, aname := an, aemail := ae, fetch := some [] }).agg.deleted_chars k =
        st.agg.deleted_chars k ∧
      (processCommit casefold group_by st
          { chash := ch, aname := an, aemail := ae, fetch := some [] }).agg.modified_chars k =
        st.agg.modified_chars k) := by
  constructor
  · rw [processCommit_commits, bumpBy_apply_self]
  · intro k
    have h := processCommit_noWalk_frame casefold group_by st ch an ae
      (some []) (Or.inr rfl)
    exact ⟨congrFun h.1 k, congrFun h.2.1 k, congrFun h.2.2.1 k,
      congrFun h.2.2.2.1 k, congrFun h.2.2.2.2 k⟩

/-- C5: the output rows come out in weakly descending order of
`modified_chars + added_chars`: each row's value is at least the next
row's. -/
theorem output_rows_sorted_desc (agg : Agg) (authors : List String) :
    (outputRows agg authors).Chain'
      (fun r1 r2 => r2.m_chars + r2.a_chars ≤ r1.m_chars + r1.a_chars) := by
  apply List.Pairwise.chain'
  rw [outputRows]
  have hp : (sortedAuthors agg authors).Pairwise
      (fun a b => decide (sort_key agg b ≤ sort_key agg a) = true) := by
    apply List.sorted_mergeSort
    · intro a b c hab hbc
      simp only [decide_eq_true_eq] at *
      omega
    · intro a b
      simp only [Bool.or_eq_true, decide_eq_true_eq]
      omega
  refine List.Pairwise.map _ ?_ hp
  intro a b hab
  simp only [decide_eq_true_eq] at hab
  simpa [outputRow, sort_key] using hab

/-- C6: in by-name mode, two identities whose names agree after casefolding
share one group key, and processing one commit of each adds 2 to that single
key's commit count. -/
theorem casefold_groups_names (casefold : String → String) (st : RunSt)
    (c1 c2 : Commit) (hn : casefold c1.aname = casefold c2.aname) :
    keyOf casefold GroupBy.name c1 = keyOf casefold GroupBy.name c2 ∧
    (processCommits casefold GroupBy.name st [c1, c2]).agg.commits_count
        (keyOf casefold GroupBy.name c1) =
      st.agg.commits_count (keyOf casefold GroupBy.name c1) + 2 := by
  have hkey : keyOf casefold GroupBy.name c1 = keyOf casefold GroupBy.name c2 := hn
  refine ⟨hkey, ?_⟩
  show (processCommit casefold GroupBy.name
      (processCommit casefold GroupBy.name st c1) c2).agg.commits_count _ = _
  rw [processCommit_commits, processCommit_commits, ← hkey, bumpBy_bumpBy,
    bumpBy_apply_self]
  norm_num

/-- Witness for C6: `Alice` and `alice` under ASCII lowercasing fold to the
key `alice`, whose commit count reaches 2. -/
theorem casefold_groups_names_witness :
    keyOf asciiLower GroupBy.name
        { chash := "h1", aname := "Alice", aemail := "a@x", fetch := none } =
      keyOf asciiLower GroupBy.name
        { chash := "h2", aname := "alice", aemail := "a@x", fetch := none } ∧
    (processCommits asciiLower GroupBy.name initRunSt
        [{ chash := "h1", aname := "Alice", aemail := "a@x", fetch := none },
         { chash := "h2", aname := "alice", aemail := "a@x", fetch := none }]).agg.commits_count
        (keyOf asciiLower GroupBy.name
          { chash := "h1", aname := "Alice", aemail := "a@x", fetch := none }) =
      initRunSt.agg.commits_count
        (keyOf asciiLower GroupBy.name
          { chash := "h1", aname := "Alice", aemail := "a@x", fetch := none }) + 2 :=
  casefold_groups_names asciiLower initRunSt
    { chash := "h1", aname := "Alice", aemail := "a@x", fetch := none }
    { chash := "h2", aname := "alice", aemail := "a@x", fetch := none }
    (by decide)

/-- C7: in every output row of every run, the eight count columns are
non-negative (only the two net columns can go negative). -/
theorem output_row_counts_nonneg (casefold : String → String)
    (group_by : GroupBy) (cs : List Commit) (key : String) :
    0 ≤ (outputRow (processCommits casefold group_by initRunSt cs).agg key).commits ∧
    0 ≤ (outputRow (processCommits casefold group_by initRunSt cs).agg key).added_l ∧
    0 ≤ (outputRow (processCommits casefold group_by initRunSt cs).agg key).deleted_l ∧
    0 ≤ (outputRow (processCommits casefold group_by initRunSt cs).agg
          key).added_plus_deleted_l ∧
    0 ≤ (outputRow (processCommits casefold group_by initRunSt cs).agg key).a_chars ∧
    0 ≤ (outputRow (processCommits casefold group_by initRunSt cs).agg key).d_chars ∧
    0 ≤ (outputRow (processCommits casefold group_by initRunSt cs).agg key).m_chars ∧
    0 ≤ (outputRow (processCommits casefold group_by initRunSt cs).agg
          key).added_or_modified := by
  have h := processCommits_nonneg casefold group_by cs initRunSt initAgg_nonneg key
  obtain ⟨h1, h2, h3, h4, h5, h6⟩ := h
  simp only [outputRow]
  refine ⟨h3, h1, h2, by omega, h4, h5, h6, by omega⟩

/-- C9: any line starting with one of the four file-header markers, even
inside a hunk, is handled as a header: the buffers are flushed, the state
leaves the hunk, and neither `deleted_lines` nor `added_lines` changes — so
raw lines `--- ...` / `+++ ...` are never counted as removals/additions. -/
theorem header_line_never_counted (key : String) (st : HunkSt) (raw : List Char)
    (h : (List.isPrefixOf "diff ".toList raw ||
        List.isPrefixOf "index ".toList raw ||
        List.isPrefixOf "--- ".toList raw ||
        List.isPrefixOf "+++ ".toList raw) = true) :
    stepLine key st raw = { flushIfBuffered key st with in_hunk := false } ∧
    (stepLine key st raw).agg.deleted_lines = st.agg.deleted_lines ∧
    (stepLine key st raw).agg.added_lines = st.agg.added_lines ∧
    (stepLine key st raw).in_hunk = false := by
  have h1 : stepLine key st raw = { flushIfBuffered key st with in_hunk := false } := by
    rw [stepLine.eq_def, if_pos h]
  refine ⟨h1, ?_, ?_, ?_⟩
  · rw [h1]
    exact (flushIfBuffered_frame key st).2.2.1
  · rw [h1]
    exact (flushIfBuffered_frame key st).2.1
  · rw [h1]

/-- A concrete walker state: inside a hunk with one buffered removed line. -/
def hunkStW : HunkSt :=
  { agg := initAgg, in_hunk := true, del_buffer := [['x']], add_buffer := [] }

/-- Witness for C9: a `--- b/file` line inside a hunk with a buffered
removed line. -/
theorem header_line_never_counted_witness :
    stepLine "k" hunkStW "--- b/file".toList =
      { flushIfBuffered "k" hunkStW with in_hunk := false } ∧
    (stepLine "k" hunkStW "--- b/file".toList).agg.deleted_lines =
      hunkStW.agg.deleted_lines ∧
    (stepLine "k" hunkStW "--- b/file".toList).agg.added_lines =
      hunkStW.agg.added_lines ∧
    (stepLine "k" hunkStW "--- b/file".toList).in_hunk = false :=
  header_line_never_counted "k" hunkStW "--- b/file".toList (by decide)

end GitStats
